import Mathlib

/-!
Shallow embedding of `src/main.rs` of the s3-deletion-visualizer repository.

The program reads segment descriptors, builds an exclusive prefix-sum offset
table, replays time-sorted event streams (k-way merged and grouped by exact
timestamp) through a per-object state-transition table held in a dense array,
and emits one rendered frame per timestamp batch.

Modelling conventions:
- `usize` arithmetic that can underflow is modelled with `checkedSub`
  (Rust's debug-profile overflow check: underflow aborts the process, which we
  surface as an explicit error value).  Indexing panics and the explicit
  `panic!` calls in `set_item` are modelled by the `PanicKind` error type.
- `i64` values (`total_actions`, Unix timestamps) are modelled as `Int`.
  `chrono` timestamps are bounded far below `2^63`, so the subtraction
  `key.timestamp() - previous_group.timestamp()` cannot overflow; `checked_div`
  models Rust's `i64::checked_div` including its `MIN / -1` overflow guard.
- `DateTime<Utc>` is modelled as a whole-second part plus a sub-second part
  (`Bucket`), ordered lexicographically, with `Bucket.sec` playing the role of
  `.timestamp()`.
- The image raster computes its flat index in `u32` arithmetic, modelled with
  an explicit `% 2^32`.
- `image_size = (len as f64).sqrt() as usize + 1` is modelled as
  `Nat.sqrt len + 1`: `f64` square roots are correctly rounded and for every
  population size below `2^52` the truncated `f64` root equals `Nat.sqrt`.
- The iterator adaptors `kmerge_by` (k-way merge picking a minimal-timestamp
  head among the live streams) and `group_by` (grouping runs of consecutive
  elements with equal key) are third-party library code; they are embedded by
  their documented semantics as `kmerge` and `groupByBucket`, written with
  structural fuel so that every definition stays a computable `def`.
-/

/-- Checked `usize` subtraction: Rust aborts on underflow (debug overflow
check); `none` models that abort. -/
def checkedSub (a b : Nat) : Option Nat :=
  if b ≤ a then some (a - b) else none

/-- The `Operation` enum of the source (`delete` / `expire` log records). -/
inductive Operation where
  | Delete
  | Expire
deriving DecidableEq

/-- A `DateTime<Utc>` bucket key: whole seconds (`timestamp()`) plus a
sub-second component, compared lexicographically like `chrono` instants. -/
structure Bucket where
  sec : Int
  sub : Nat
deriving DecidableEq

/-- The strict `<` of `DateTime<Utc>` used by `kmerge_by(|a, b| a.bucket < b.bucket)`. -/
def Bucket.blt (a b : Bucket) : Bool :=
  decide (a.sec < b.sec) || (decide (a.sec = b.sec) && decide (a.sub < b.sub))

/-- Propositional strict order on buckets. -/
def Bucket.Lt (a b : Bucket) : Prop :=
  a.sec < b.sec ∨ (a.sec = b.sec ∧ a.sub < b.sub)

/-- Propositional non-strict order on buckets. -/
def Bucket.Le (a b : Bucket) : Prop :=
  a.sec < b.sec ∨ (a.sec = b.sec ∧ a.sub ≤ b.sub)

instance (a b : Bucket) : Decidable (Bucket.Lt a b) := by
  unfold Bucket.Lt; infer_instance

instance (a b : Bucket) : Decidable (Bucket.Le a b) := by
  unfold Bucket.Le; infer_instance

/-- The `Event` record: `{"bucket":..., "operation":..., "segment":..., "items":[...]}`.
`items` are `i32` in-segment object numbers. -/
structure Event where
  bucket : Bucket
  operation : Operation
  segment : Nat
  items : List Int
deriving DecidableEq

/-- The `Segment` record: `{"segment":..., "num":...}`. -/
structure Segment where
  segment : Nat
  num : Nat
deriving DecidableEq

/-- The `FileState` enum: per-object lifecycle state. -/
inductive FileState where
  | Present
  | DeleteMarker
  | Expired
  | DeleteMarkerDeleted
  | WeirdCase
deriving DecidableEq

/-- `impl From<&FileState> for Rgb<u8>`: the fixed colour of each state. -/
def rgbOfState : FileState → Nat × Nat × Nat
  | .Present => (0, 255, 0)
  | .DeleteMarker => (255, 255, 0)
  | .Expired => (255, 0, 0)
  | .DeleteMarkerDeleted => (0, 0, 0)
  | .WeirdCase => (0, 0, 0)

/-- The `State` struct: offset table, dense per-object state array, raster side
length and output resolution. -/
structure State where
  offsets : List Nat
  files : List FileState
  image_size : Nat
  output_image_size : Nat
deriving DecidableEq

/-- The distinct ways `set_item` can abort the process. -/
inductive PanicKind where
  /-- The unguarded `self.offsets[segment - 1]` access aborts: either the
  `segment - 1` underflow or an index out of bounds.  No diagnostic context. -/
  | offsetAccess
  /-- The `offset + number - 1` subtraction underflows. -/
  | idxUnderflow
  /-- `self.files.get_mut(idx)` returned `None`: the documented fatal
  diagnostic carrying segment, number, offset, computed index, array length. -/
  | outOfRange (segment number offset idx len : Nat)
  /-- The `_ => panic!("Failure: ...")` fall-through of the transition match. -/
  | tableDomain
deriving DecidableEq

instance {ε α : Type} [DecidableEq ε] [DecidableEq α] : DecidableEq (Except ε α) := fun x y =>
  match x, y with
  | .error a, .error b =>
    if h : a = b then .isTrue (congrArg Except.error h)
    else .isFalse (fun hc => h (Except.error.inj hc))
  | .ok a, .ok b =>
    if h : a = b then .isTrue (congrArg Except.ok h)
    else .isFalse (fun hc => h (Except.ok.inj hc))
  | .error _, .ok _ => .isFalse (fun hc => Except.noConfusion hc)
  | .ok _, .error _ => .isFalse (fun hc => Except.noConfusion hc)

/-- The `item as usize` cast of an `i32` on a 64-bit target (sign-extending). -/
def usizeOfI32 (i : Int) : Nat :=
  ((i + 2 ^ 64) % 2 ^ 64).toNat

/-- The transition match of `set_item` (operation, current state) → next state;
`none` is the `_ => panic!("Failure: ...")` fall-through.  The
`(_, WeirdCase) => {}` arm leaves the state unchanged. -/
def transition : Operation → FileState → Option FileState
  | .Delete, .Present => some .DeleteMarker
  | .Expire, .DeleteMarker => some .Expired
  | .Expire, .Expired => some .DeleteMarkerDeleted
  | .Delete, .DeleteMarker => some .DeleteMarkerDeleted
  | .Expire, .Present => some .DeleteMarkerDeleted
  | .Delete, .DeleteMarkerDeleted => some .WeirdCase
  | .Expire, .DeleteMarkerDeleted => some .WeirdCase
  | .Delete, .WeirdCase => some .WeirdCase
  | .Expire, .WeirdCase => some .WeirdCase
  | .Delete, .Expired => none

/-- The spec's transition table, written from the spec's words (row = current
state, columns = operation), for comparison against `transition`. -/
def tableTransition : Operation → FileState → FileState
  | .Delete, .Present => .DeleteMarker
  | .Delete, .DeleteMarker => .DeleteMarkerDeleted
  | .Delete, .Expired => .WeirdCase
  | .Delete, .DeleteMarkerDeleted => .WeirdCase
  | .Delete, .WeirdCase => .WeirdCase
  | .Expire, .Present => .DeleteMarkerDeleted
  | .Expire, .DeleteMarker => .Expired
  | .Expire, .Expired => .DeleteMarkerDeleted
  | .Expire, .DeleteMarkerDeleted => .WeirdCase
  | .Expire, .WeirdCase => .WeirdCase

/-- Lines 96-97 of the source: `offset = offsets[segment - 1]`,
`idx = offset + number - 1`, as a total function returning `none` where the
`usize` arithmetic or the indexing would abort. -/
def locate (off : List Nat) (segment number : Nat) : Option Nat :=
  match checkedSub segment 1 with
  | none => none
  | some segIdx =>
    match off.get? segIdx with
    | none => none
    | some offset => checkedSub (offset + number) 1

/-- `State::set_item` restricted to the fields it reads and writes: the offset
table is read-only and only `files` is mutated. -/
def set_files (off : List Nat) (files : List FileState) (segment number : Nat)
    (operation : Operation) : Except PanicKind (List FileState) :=
  match checkedSub segment 1 with
  | none => .error .offsetAccess
  | some segIdx =>
    match off.get? segIdx with
    | none => .error .offsetAccess
    | some offset =>
      match checkedSub (offset + number) 1 with
      | none => .error .idxUnderflow
      | some idx =>
        match files.get? idx with
        | none => .error (.outOfRange segment number offset idx files.length)
        | some item =>
          match transition operation item with
          | none => .error .tableDomain
          | some newItem => .ok (files.set idx newItem)

/-- `State::set_item`: mutates `self.files` in place; a panic aborts the run. -/
def set_item (s : State) (segment number : Nat) (operation : Operation) :
    Except PanicKind State :=
  match set_files s.offsets s.files segment number operation with
  | .error e => .error e
  | .ok fs => .ok { s with files := fs }

/-- Largest `j ≤ k` with `j * j ≤ n` (0 when there is none): a structurally
recursive integer square root helper. -/
def isqrtAux : Nat → Nat → Nat
  | 0, _ => 0
  | k + 1, n => if (k + 1) * (k + 1) ≤ n then k + 1 else isqrtAux k n

/-- The truncated square root `(n as f64).sqrt() as usize` (see the header
note on the `f64` square root); proven equal to `Nat.sqrt` below. -/
def isqrt (n : Nat) : Nat :=
  isqrtAux n n

/-- `State::new`: all objects start `Present`; the raster side is
`sqrt(len) + 1`. -/
def State.new (offsets : List Nat) (total_size : Nat) (output_image_size : Nat) : State :=
  let files := List.replicate total_size FileState.Present
  { offsets := offsets
    files := files
    image_size := isqrt files.length + 1
    output_image_size := output_image_size }

/-- One pixel of the full-resolution raster built by `State::get_frame`:
`row_idx = y * image_size; idx = row_idx + x` in `u32` arithmetic, out-of-array
indices render black. -/
def framePixel (s : State) (x y : Nat) : Nat × Nat × Nat :=
  let rowIdx := (y * (s.image_size % 2 ^ 32)) % 2 ^ 32
  let idx := (rowIdx + x) % 2 ^ 32
  match s.files.get? idx with
  | none => (0, 0, 0)
  | some v => rgbOfState v

/-- The per-state count taken in `main`:
`state.files.iter().filter(|s| **s == X).count()`. -/
def countState (files : List FileState) (t : FileState) : Nat :=
  (files.filter (fun x => decide (x = t))).length

/-- The frame index formatting `format!("{:0width$}.png", idx, width = 4)`
without the extension: the decimal digits zero-padded to at least four. -/
def zeroPad4 (n : Nat) : String :=
  let s := toString n
  String.mk (List.replicate (4 - s.length) '0') ++ s

/-- `i64::checked_div`: `none` on division by zero or on the overflowing
`i64::MIN / -1`; Rust integer division truncates toward zero (`Int.tdiv`). -/
def checked_div (a b : Int) : Option Int :=
  if b = 0 ∨ (a = -(2 ^ 63) ∧ b = -1) then none else some (a.tdiv b)

/-- Line 281 of the source:
`total_actions.checked_div(key.timestamp() - previous_group.timestamp()).unwrap_or(0)`. -/
def actionsPerSecond (total_actions : Int) (key previousGroup : Bucket) : Int :=
  (checked_div total_actions (key.sec - previousGroup.sec)).getD 0

/-- The inner loop `for item in event.items { state.set_item(...) }` over the
files array, for one segment/operation. -/
def applyItems (off : List Nat) (seg : Nat) (op : Operation)
    (fs : List FileState) : List Int → Except PanicKind (List FileState)
  | [] => .ok fs
  | it :: rest =>
    match set_files off fs seg (usizeOfI32 it) op with
    | .error e => .error e
    | .ok fs1 => applyItems off seg op fs1 rest

/-- Applying one event: every listed item number, in list order. -/
def applyEventFiles (off : List Nat) (fs : List FileState) (e : Event) :
    Except PanicKind (List FileState) :=
  applyItems off e.segment e.operation fs e.items

/-- The `for event in group` loop over the files array. -/
def applyGroupFiles (off : List Nat) (fs : List FileState) :
    List Event → Except PanicKind (List FileState)
  | [] => .ok fs
  | e :: rest =>
    match applyEventFiles off fs e with
    | .error err => .error err
    | .ok fs1 => applyGroupFiles off fs1 rest

/-- The per-batch application loop at the `State` level. -/
def applyGroup (s : State) (events : List Event) : Except PanicKind State :=
  match applyGroupFiles s.offsets s.files events with
  | .error e => .error e
  | .ok fs => .ok { s with files := fs }

/-- The global array cells an item list resolves to (the cells an event reads
and writes); items whose resolution aborts contribute no cell. -/
def itemsCells (off : List Nat) (seg : Nat) (items : List Int) : List Nat :=
  items.filterMap (fun it => locate off seg (usizeOfI32 it))

/-- The global array cells touched by one event. -/
def eventCells (off : List Nat) (e : Event) : List Nat :=
  itemsCells off e.segment e.items

/-- Two events touch disjoint sets of global array cells (under a fixed
offset table). -/
def DisjointEvents (off : List Nat) (a b : Event) : Prop :=
  ∀ c ∈ eventCells off a, c ∉ eventCells off b

instance (off : List Nat) (a b : Event) : Decidable (DisjointEvents off a b) := by
  unfold DisjointEvents
  infer_instance

/-- A sequence of array writes (cell, value), applied left to right. -/
def writeSeq (fs : List FileState) (ws : List (Nat × FileState)) : List FileState :=
  ws.foldl (fun f iv => f.set iv.1 iv.2) fs

/-- The `scan(0, ...)` of `main` computing the exclusive prefix sum of the
segment counts. -/
def scanOffsets (acc : Nat) : List Segment → List Nat
  | [] => []
  | x :: rest => acc :: scanOffsets (acc + x.num) rest

/-- Insert a segment after every already-placed segment with id at most its
own (the insertion step of a stable sort). -/
def insertSeg (x : Segment) : List Segment → List Segment
  | [] => [x]
  | y :: rest =>
    if y.segment ≤ x.segment then y :: insertSeg x rest else x :: y :: rest

/-- `segments.sort_by_key(|v| v.segment)`: a stable sort ascending by id,
modelled as left-to-right stable insertion sort (any stable sort computes the
same list). -/
def sortSegments (l : List Segment) : List Segment :=
  l.foldl (fun acc x => insertSeg x acc) []

/-- One round of the k-way merge: pick the stream whose head is minimal under
`Bucket.blt` (the earliest such stream on ties), return that head and the
remaining streams.  `none` iff every stream is exhausted. -/
def pickMin : List (List Event) → Option (Event × List (List Event))
  | [] => none
  | [] :: rest => pickMin rest
  | (e :: t) :: rest =>
    match pickMin rest with
    | none => some (e, [t])
    | some (e', rest') =>
      if Bucket.blt e'.bucket e.bucket then some (e', (e :: t) :: rest')
      else some (e, t :: rest)

/-- Total number of events still queued across all streams. -/
def totalLen (ls : List (List Event)) : Nat :=
  ls.flatten.length

/-- Fuelled k-way merge loop. -/
def kmergeFuel : Nat → List (List Event) → List Event
  | 0, _ => []
  | n + 1, ls =>
    match pickMin ls with
    | none => []
    | some (e, rest) => e :: kmergeFuel n rest

/-- `kmerge_by(|a, b| a.bucket < b.bucket)`: the globally merged event
sequence. -/
def kmerge (ls : List (List Event)) : List Event :=
  kmergeFuel (totalLen ls) ls

/-- Fuelled loop of `group_by(|e| e.bucket)`: greedily take the run of
consecutive events sharing the first event's bucket. -/
def groupFuel : Nat → List Event → List (Bucket × List Event)
  | 0, _ => []
  | _, [] => []
  | n + 1, e :: rest =>
    (e.bucket, e :: rest.takeWhile (fun x => decide (x.bucket = e.bucket))) ::
      groupFuel n (rest.dropWhile (fun x => decide (x.bucket = e.bucket)))

/-- `group_by(|e| e.bucket)`: consecutive equal-timestamp events form one
batch, keyed by that timestamp. -/
def groupByBucket (l : List Event) : List (Bucket × List Event) :=
  groupFuel l.length l

/-- What the per-batch body of `main` computes and hands to the renderer and
the output collaborator. -/
structure BatchOutput where
  hours : Int
  present : Nat
  delete_marker : Nat
  expired : Nat
  delete_marker_deleted : Nat
  weird_case : Nat
  actions_per_second : Int
  frame_index : String
deriving DecidableEq

/-- Nanosecond timeline position of a bucket (for `Duration::num_hours`). -/
def bucketNanos (b : Bucket) : Int :=
  b.sec * 1000000000 + b.sub

/-- The `for (idx, (key, group)) in items.into_iter().enumerate()` loop of
`main`: apply the batch, compute counts and the rate, emit one frame record per
batch.  A panic anywhere aborts the whole run. -/
def runBatches (s : State) (previous first : Option Bucket) (idx : Nat) :
    List (Bucket × List Event) → Except PanicKind (List BatchOutput × State)
  | [] => .ok ([], s)
  | (key, group) :: rest =>
    let previousGroup := match previous with
      | none => key
      | some v => v
    let firstDT := match first with
      | none => key
      | some v => v
    match applyGroup s group with
    | .error e => .error e
    | .ok s1 =>
      let total_actions : Int := (group.map (fun e => (e.items.length : Int))).sum
      let out : BatchOutput :=
        { hours := (bucketNanos key - bucketNanos firstDT).tdiv 3600000000000
          present := countState s1.files .Present
          delete_marker := countState s1.files .DeleteMarker
          expired := countState s1.files .Expired
          delete_marker_deleted := countState s1.files .DeleteMarkerDeleted
          weird_case := countState s1.files .WeirdCase
          actions_per_second := actionsPerSecond total_actions key previousGroup
          frame_index := zeroPad4 idx }
      match runBatches s1 (some key) (some firstDT) (idx + 1) rest with
      | .error e => .error e
      | .ok (outs, sF) => .ok (out :: outs, sF)

/-- The whole `main` pipeline after decoding: sort segments, build offsets,
initialise the state, merge and group the event streams, process every batch. -/
def runMain (rawSegments : List Segment) (streams : List (List Event))
    (outputSize : Nat) : Except PanicKind (List BatchOutput × State) :=
  let segs := sortSegments rawSegments
  let offsets := scanOffsets 0 segs
  let total_files := (segs.map Segment.num).sum
  let state := State.new offsets total_files outputSize
  runBatches state none none 0 (groupByBucket (kmerge streams))

/-! ### Small list helpers -/

theorem get?_of_set_self {α : Type} (l : List α) (i : Nat) (v : α) (h : i < l.length) :
    (l.set i v).get? i = some v := by
  simp [List.get?_eq_getElem?, List.getElem?_set_self, h]

theorem get?_of_set_ne {α : Type} (l : List α) (i j : Nat) (v : α) (h : i ≠ j) :
    (l.set i v).get? j = l.get? j := by
  simp [List.get?_eq_getElem?, List.getElem?_set_ne h]

theorem set_of_get?_eq {α : Type} (l : List α) (i : Nat) (v : α)
    (h : l.get? i = some v) : l.set i v = l := by
  induction l generalizing i with
  | nil => simp at h
  | cons a t ih =>
    cases i with
    | zero => simp at h; simp [h]
    | succ j => simp at h ⊢; exact ih j (by simpa [List.get?_eq_getElem?] using h)

theorem lt_length_of_get?_eq_some {α : Type} (l : List α) (i : Nat) (v : α)
    (h : l.get? i = some v) : i < l.length := by
  by_contra hc
  rw [List.get?_eq_none.mpr (Nat.le_of_not_lt hc)] at h
  exact Option.noConfusion h

/-! ### Claim C1 -/

/-- Claim C1 counterexample: the transition match is not exhaustive as claimed.
For an object in state `Expired`, operation `Delete` does not transition to
`WeirdCase`: it falls through to the fatal `panic!("Failure: ...")` branch. -/
theorem delete_on_expired_hits_failure_branch :
    set_item ⟨[0], [FileState.Expired], 2, 64⟩ 1 1 Operation.Delete =
      Except.error PanicKind.tableDomain := by decide

/-- Claim C1 (amended): the transition match covers every pair of
`{Delete, Expire} x {5 states}` except `(Delete, Expired)`, which reaches the
fatal logic-error branch; every covered pair transitions exactly as the spec's
table says. -/
theorem transition_table_agreement :
    (∀ op st, ¬(op = Operation.Delete ∧ st = FileState.Expired) →
      transition op st = some (tableTransition op st)) ∧
    transition Operation.Delete FileState.Expired = none := by
  constructor
  · intro op st h
    cases op <;> cases st <;> simp_all [transition, tableTransition]
  · rfl

/-- Witness for the amended claim C1 at the pair `(Expire, Present)`. -/
theorem transition_table_agreement_witness :
    ¬(Operation.Expire = Operation.Delete ∧ FileState.Present = FileState.Expired) ∧
    transition Operation.Expire FileState.Present =
      some (tableTransition Operation.Expire FileState.Present) :=
  ⟨by decide, transition_table_agreement.1 Operation.Expire FileState.Present (by decide)⟩

/-! ### Claims C3 and C4 -/

theorem tdiv_eq_fdiv_of_nonneg (a b : Int) (ha : 0 ≤ a) (hb : 0 ≤ b) :
    a.tdiv b = a.fdiv b :=
  (Int.fdiv_eq_tdiv ha hb).symm

/-- Claim C3 counterexample: with elapsed seconds 0 and `total_actions = 5 > 0`
the code's rate is 0, not `total_actions div max(1, elapsed) = 5`. -/
theorem rate_not_div_by_max_one :
    actionsPerSecond 5 ⟨100, 0⟩ ⟨100, 0⟩ = 0 ∧
    Int.tdiv 5 (max 1 ((100 : Int) - 100)) = 5 ∧
    actionsPerSecond 5 ⟨100, 0⟩ ⟨100, 0⟩ ≠ Int.tdiv 5 (max 1 ((100 : Int) - 100)) := by
  decide

/-- Claim C3 (amended): for every batch with nonnegative `total_actions`, the
derived rate is 0 when the elapsed seconds are 0, and `total_actions`
integer-divided by the elapsed seconds otherwise. -/
theorem rate_formula (ta : Int) (key prev : Bucket) (hta : 0 ≤ ta) :
    actionsPerSecond ta key prev =
      if key.sec - prev.sec = 0 then 0 else ta.tdiv (key.sec - prev.sec) := by
  rcases em (key.sec - prev.sec = 0) with h | h
  · simp [actionsPerSecond, checked_div, h]
  · have hne : ¬(key.sec - prev.sec = 0 ∨ (ta = -(2 ^ 63) ∧ key.sec - prev.sec = -1)) := by
      rintro (h1 | ⟨h1, h2⟩)
      · exact h h1
      · rw [h1] at hta
        norm_num at hta
    unfold actionsPerSecond checked_div
    rw [if_neg hne, if_neg h]
    rfl

/-- Witness for the amended claim C3 at `total_actions = 7`, elapsed 3 s. -/
theorem rate_formula_witness :
    (0 : Int) ≤ 7 ∧ actionsPerSecond 7 ⟨5, 0⟩ ⟨2, 0⟩ =
      if (5 : Int) - 2 = 0 then 0 else Int.tdiv 7 ((5 : Int) - 2) :=
  ⟨by decide, rate_formula 7 ⟨5, 0⟩ ⟨2, 0⟩ (by decide)⟩

/-- Claim C4: for consecutive batches (previous timestamp at most the current
one, nonnegative action count), elapsed seconds 0 gives rate 0 — including the
first batch, whose previous timestamp is its own — and positive elapsed seconds
give `total_actions` floor-divided by the elapsed seconds, with `checked_div`
returning an actual value (no division panic, no `MIN / -1` overflow). -/
theorem rate_consecutive_batches (ta : Int) (key prev : Bucket)
    (hta : 0 ≤ ta) (hle : prev.sec ≤ key.sec) :
    (key.sec = prev.sec → actionsPerSecond ta key prev = 0) ∧
    (prev.sec < key.sec →
      checked_div ta (key.sec - prev.sec) = some (ta.fdiv (key.sec - prev.sec)) ∧
      actionsPerSecond ta key prev = ta.fdiv (key.sec - prev.sec)) := by
  constructor
  · intro h
    simp [actionsPerSecond, checked_div, h]
  · intro h
    have hb : (0 : Int) < key.sec - prev.sec := by omega
    have hzero : ¬(key.sec - prev.sec = 0 ∨ (ta = -(2 ^ 63) ∧ key.sec - prev.sec = -1)) := by
      rintro (h1 | ⟨h1, h2⟩) <;> omega
    have hdiv : ta.tdiv (key.sec - prev.sec) = ta.fdiv (key.sec - prev.sec) :=
      tdiv_eq_fdiv_of_nonneg _ _ hta (le_of_lt hb)
    constructor
    · unfold checked_div
      rw [if_neg hzero, hdiv]
    · unfold actionsPerSecond checked_div
      rw [if_neg hzero, hdiv]
      rfl

/-- Witness for claim C4 at `total_actions = 10`, timestamps 7 and 3. -/
theorem rate_consecutive_batches_witness :
    ((0 : Int) ≤ 10 ∧ Bucket.sec ⟨3, 0⟩ ≤ Bucket.sec ⟨7, 0⟩) ∧
    ((Bucket.sec ⟨7, 0⟩ = Bucket.sec ⟨3, 0⟩ → actionsPerSecond 10 ⟨7, 0⟩ ⟨3, 0⟩ = 0) ∧
      (Bucket.sec ⟨3, 0⟩ < Bucket.sec ⟨7, 0⟩ →
        checked_div 10 (Bucket.sec ⟨7, 0⟩ - Bucket.sec ⟨3, 0⟩) =
          some (Int.fdiv 10 (Bucket.sec ⟨7, 0⟩ - Bucket.sec ⟨3, 0⟩)) ∧
        actionsPerSecond 10 ⟨7, 0⟩ ⟨3, 0⟩ =
          Int.fdiv 10 (Bucket.sec ⟨7, 0⟩ - Bucket.sec ⟨3, 0⟩))) :=
  ⟨⟨by decide, by decide⟩, rate_consecutive_batches 10 ⟨7, 0⟩ ⟨3, 0⟩ (by decide) (by decide)⟩

/-! ### Claim C7 -/

/-- Claim C7: `WeirdCase` is absorbing.  For an object currently in state
`WeirdCase`, `set_item` with either operation succeeds and returns the state
store completely unchanged. -/
theorem weirdcase_absorbing (s : State) (segment number offset : Nat) (op : Operation)
    (h1 : 1 ≤ segment)
    (h2 : s.offsets.get? (segment - 1) = some offset)
    (h3 : 1 ≤ offset + number)
    (h4 : s.files.get? (offset + number - 1) = some FileState.WeirdCase) :
    set_item s segment number op = Except.ok s := by
  have htr : transition op FileState.WeirdCase = some FileState.WeirdCase := by
    cases op <;> rfl
  have hset : s.files.set (offset + number - 1) FileState.WeirdCase = s.files :=
    set_of_get?_eq _ _ _ h4
  have h2' : s.offsets[segment - 1]? = some offset := by
    simpa [List.get?_eq_getElem?] using h2
  have h4' : s.files[offset + number - 1]? = some FileState.WeirdCase := by
    simpa [List.get?_eq_getElem?] using h4
  unfold set_item set_files checkedSub
  simp [h1, h2', h3, h4', htr, hset]

/-- Witness for claim C7: a one-object store already in `WeirdCase`. -/
theorem weirdcase_absorbing_witness :
    (1 ≤ 1 ∧
      (State.offsets ⟨[0], [FileState.WeirdCase], 2, 64⟩).get? (1 - 1) = some 0) ∧
    (1 ≤ 0 + 1 ∧
      (State.files ⟨[0], [FileState.WeirdCase], 2, 64⟩).get? (0 + 1 - 1) =
        some FileState.WeirdCase) ∧
    set_item ⟨[0], [FileState.WeirdCase], 2, 64⟩ 1 1 Operation.Expire =
      Except.ok ⟨[0], [FileState.WeirdCase], 2, 64⟩ :=
  ⟨⟨by decide, by decide⟩, ⟨by decide, by decide⟩,
    weirdcase_absorbing ⟨[0], [FileState.WeirdCase], 2, 64⟩ 1 1 0 Operation.Expire
      (by decide) (by decide) (by decide) (by decide)⟩

/-! ### Claim C6 -/

theorem scanOffsets_length (acc : Nat) (l : List Segment) :
    (scanOffsets acc l).length = l.length := by
  induction l generalizing acc with
  | nil => rfl
  | cons x rest ih => simp [scanOffsets, ih]

theorem scanOffsets_get? (acc : Nat) (l : List Segment) (i : Nat) (h : i < l.length) :
    (scanOffsets acc l).get? i = some (acc + ((l.take i).map Segment.num).sum) := by
  induction l generalizing acc i with
  | nil => simp at h
  | cons x rest ih =>
    cases i with
    | zero => simp [scanOffsets]
    | succ j =>
      have hj : j < rest.length := by simpa using h
      simp only [scanOffsets, List.get?_cons_succ, List.take_succ_cons, List.map_cons,
        List.sum_cons]
      rw [ih (acc + x.num) j hj]
      congr 1
      omega

/-- Claim C6: for any segment descriptors with distinct ids, after sorting
ascending by id the offset table is the exclusive prefix sum of the counts
(entry `i` is the sum of the first `i` counts, so entry 0 is 0 and each entry
adds the previous count), the state store holds `sum(c_i)` objects, and
locating in-segment number 1 of the `i`-th segment yields exactly entry `i` of
the offset table. -/
theorem offsets_prefix_sum (raw : List Segment) (o : Nat)
    (hids : (raw.map Segment.segment).Nodup) :
    (scanOffsets 0 (sortSegments raw)).length = (sortSegments raw).length ∧
    (∀ i, i < (sortSegments raw).length →
      (scanOffsets 0 (sortSegments raw)).get? i =
        some ((((sortSegments raw).take i).map Segment.num).sum)) ∧
    (State.new (scanOffsets 0 (sortSegments raw))
        (((sortSegments raw).map Segment.num).sum) o).files.length =
      (((sortSegments raw).map Segment.num).sum) ∧
    (∀ i, i < (sortSegments raw).length →
      locate (scanOffsets 0 (sortSegments raw)) (i + 1) 1 =
        (scanOffsets 0 (sortSegments raw)).get? i) := by
  refine ⟨scanOffsets_length 0 _, ?_, ?_, ?_⟩
  · intro i hi
    simpa using scanOffsets_get? 0 (sortSegments raw) i hi
  · simp [State.new]
  · intro i hi
    have hg := scanOffsets_get? 0 (sortSegments raw) i hi
    unfold locate checkedSub
    simp only [show 1 ≤ i + 1 by omega, if_pos, Nat.add_sub_cancel]
    rw [hg]
    simp

/-- Witness for claim C6 on two out-of-order segments. -/
theorem offsets_prefix_sum_witness :
    ([Segment.mk 2 5, Segment.mk 1 3].map Segment.segment).Nodup ∧
    ((scanOffsets 0 (sortSegments [Segment.mk 2 5, Segment.mk 1 3])).length =
        (sortSegments [Segment.mk 2 5, Segment.mk 1 3]).length ∧
      (∀ i, i < (sortSegments [Segment.mk 2 5, Segment.mk 1 3]).length →
        (scanOffsets 0 (sortSegments [Segment.mk 2 5, Segment.mk 1 3])).get? i =
          some ((((sortSegments [Segment.mk 2 5, Segment.mk 1 3]).take i).map
            Segment.num).sum)) ∧
      (State.new (scanOffsets 0 (sortSegments [Segment.mk 2 5, Segment.mk 1 3]))
          (((sortSegments [Segment.mk 2 5, Segment.mk 1 3]).map Segment.num).sum)
          64).files.length =
        (((sortSegments [Segment.mk 2 5, Segment.mk 1 3]).map Segment.num).sum) ∧
      (∀ i, i < (sortSegments [Segment.mk 2 5, Segment.mk 1 3]).length →
        locate (scanOffsets 0 (sortSegments [Segment.mk 2 5, Segment.mk 1 3])) (i + 1) 1 =
          (scanOffsets 0 (sortSegments [Segment.mk 2 5, Segment.mk 1 3])).get? i)) :=
  ⟨by decide, offsets_prefix_sum [Segment.mk 2 5, Segment.mk 1 3] 64 (by decide)⟩

/-! ### Claim C8 -/

theorem isqrtAux_eq_sqrt (k n : Nat) (h : Nat.sqrt n ≤ k) : isqrtAux k n = Nat.sqrt n := by
  induction k with
  | zero => unfold isqrtAux; omega
  | succ j ih =>
    unfold isqrtAux
    by_cases hle : (j + 1) * (j + 1) ≤ n
    · rw [if_pos hle]
      have h1 : j + 1 ≤ Nat.sqrt n := Nat.le_sqrt.mpr hle
      omega
    · rw [if_neg hle]
      have h2 : Nat.sqrt n ≤ j := by
        by_contra hc
        have h3 : j + 1 ≤ Nat.sqrt n := by omega
        exact hle (Nat.le_sqrt.mp h3)
      exact ih h2

theorem isqrt_eq_sqrt (n : Nat) : isqrt n = Nat.sqrt n :=
  isqrtAux_eq_sqrt n n (Nat.sqrt_le_self n)

/-- Claim C8: the full-resolution raster is square with side
`floor(sqrt(total)) + 1`; a pixel whose flattened index `y*side + x` addresses
an object shows that object's fixed state colour (Present green, DeleteMarker
yellow, Expired red, DeleteMarkerDeleted black, WeirdCase black), and every
pixel whose flattened index is at least the object count is black. -/
theorem frame_pixel_colors (s : State) (x y : Nat)
    (hx : x < s.image_size) (hy : y < s.image_size)
    (hsz : s.image_size * s.image_size ≤ 2 ^ 32) :
    (∀ off t o, (State.new off t o).image_size = Nat.sqrt t + 1) ∧
    rgbOfState .Present = (0, 255, 0) ∧
    rgbOfState .DeleteMarker = (255, 255, 0) ∧
    rgbOfState .Expired = (255, 0, 0) ∧
    rgbOfState .DeleteMarkerDeleted = (0, 0, 0) ∧
    rgbOfState .WeirdCase = (0, 0, 0) ∧
    (∀ v, s.files.get? (y * s.image_size + x) = some v →
      framePixel s x y = rgbOfState v) ∧
    (s.files.length ≤ y * s.image_size + x → framePixel s x y = (0, 0, 0)) := by
  have hsqrt : ∀ t : Nat, isqrt t = Nat.sqrt t := isqrt_eq_sqrt
  have hpos : 0 < s.image_size := by omega
  have hidx : y * s.image_size + x < 2 ^ 32 := by
    have h1 : y * s.image_size + x < (y + 1) * s.image_size := by
      have := Nat.add_mul y 1 s.image_size
      omega
    have h2 : (y + 1) * s.image_size ≤ s.image_size * s.image_size := by
      have := Nat.mul_le_mul_right s.image_size (show y + 1 ≤ s.image_size by omega)
      omega
    omega
  have hside : s.image_size < 2 ^ 32 := by
    have h1 : s.image_size * 1 ≤ s.image_size * s.image_size :=
      Nat.mul_le_mul_left s.image_size hpos
    rcases Nat.lt_or_ge s.image_size (2 ^ 32) with h | h
    · exact h
    · exfalso
      have h2 : 2 ^ 32 * 2 ^ 32 ≤ s.image_size * s.image_size :=
        Nat.mul_le_mul h h
      norm_num at h2
      omega
  have hrow : y * s.image_size < 2 ^ 32 := by omega
  have hunfold : framePixel s x y =
      match s.files.get? (y * s.image_size + x) with
      | none => (0, 0, 0)
      | some v => rgbOfState v := by
    unfold framePixel
    simp only [Nat.mod_eq_of_lt hside, Nat.mod_eq_of_lt hrow, Nat.mod_eq_of_lt hidx]
  refine ⟨fun off t o => by simp [State.new, hsqrt], rfl, rfl, rfl, rfl, rfl, ?_, ?_⟩
  · intro v hv
    rw [hunfold, hv]
  · intro hge
    rw [hunfold, List.get?_eq_none.mpr hge]

/-- Witness for claim C8 on a three-object store with a 2x2 raster. -/
theorem frame_pixel_colors_witness :
    (1 < 2 ∧ 1 < 2 ∧ 2 * 2 ≤ 2 ^ 32) ∧
    ((∀ off t o, (State.new off t o).image_size = Nat.sqrt t + 1) ∧
      rgbOfState .Present = (0, 255, 0) ∧
      rgbOfState .DeleteMarker = (255, 255, 0) ∧
      rgbOfState .Expired = (255, 0, 0) ∧
      rgbOfState .DeleteMarkerDeleted = (0, 0, 0) ∧
      rgbOfState .WeirdCase = (0, 0, 0) ∧
      (∀ v, (State.files ⟨[0], [.Present, .DeleteMarker, .Expired], 2, 64⟩).get?
          (1 * 2 + 1) = some v →
        framePixel ⟨[0], [.Present, .DeleteMarker, .Expired], 2, 64⟩ 1 1 = rgbOfState v) ∧
      ((State.files ⟨[0], [.Present, .DeleteMarker, .Expired], 2, 64⟩).length ≤ 1 * 2 + 1 →
        framePixel ⟨[0], [.Present, .DeleteMarker, .Expired], 2, 64⟩ 1 1 = (0, 0, 0))) :=
  ⟨⟨by decide, by decide, by norm_num⟩,
    frame_pixel_colors ⟨[0], [.Present, .DeleteMarker, .Expired], 2, 64⟩ 1 1
      (by decide) (by decide) (by norm_num)⟩

/-! ### Claim C9 -/

/-- Claim C9 (scenario A): one segment with id 1 and `num = 3` (offset 0), one
batch at `t1` with operation `delete` and items `[1, 2]`.  The run succeeds,
the final state array is `[DeleteMarker, DeleteMarker, Present]`, the counts
are Present 1, DeleteMarker 2, Expired 0, DeleteMarkerDeleted 0, WeirdCase 0,
and exactly one frame is emitted, under the zero-padded index `0000`. -/
theorem scenario_a :
    runMain [⟨1, 3⟩] [[⟨⟨1000, 0⟩, Operation.Delete, 1, [1, 2]⟩]] 64 =
      Except.ok ([⟨0, 1, 2, 0, 0, 0, 0, "0000"⟩],
        ⟨[0], [.DeleteMarker, .DeleteMarker, .Present], 2, 64⟩) ∧
    zeroPad4 0 = "0000" := by
  decide

/-! ### Claim C10 -/

theorem checkedSub_pos (a b : Nat) (h : b ≤ a) : checkedSub a b = some (a - b) := by
  simp [checkedSub, h]

theorem checkedSub_none (a b : Nat) (h : a < b) : checkedSub a b = none := by
  unfold checkedSub
  rw [if_neg (by omega)]

theorem checkedSub_inv (a b s : Nat) (h : checkedSub a b = some s) : b ≤ a ∧ s = a - b := by
  unfold checkedSub at h
  by_cases hb : b ≤ a
  · rw [if_pos hb] at h
    exact ⟨hb, (Option.some.inj h).symm⟩
  · rw [if_neg hb] at h
    exact Option.noConfusion h

/-- Claim C10: the documented fatal diagnostic (segment, number, offset,
computed index, array length) is produced only when `1 ≤ segment ≤ #segments`
and the computed index `offsets[segment-1] + number - 1` is at least the state
array length; a call with `segment = 0` or `segment > #segments` instead
aborts through the unguarded `offsets[segment - 1]` access, without that
diagnostic context. -/
theorem set_item_panic_conditions (s : State) (segment number : Nat) (op : Operation) :
    (∀ a b c d e, set_item s segment number op = .error (.outOfRange a b c d e) →
      1 ≤ segment ∧ segment ≤ s.offsets.length ∧
      a = segment ∧ b = number ∧
      s.offsets.get? (segment - 1) = some c ∧ c + number = d + 1 ∧
      e = s.files.length ∧ e ≤ d) ∧
    ((segment = 0 ∨ s.offsets.length < segment) →
      set_item s segment number op = .error .offsetAccess) := by
  constructor
  · intro a b c d e h
    unfold set_item at h
    cases hsf : set_files s.offsets s.files segment number op with
    | ok fs => rw [hsf] at h; exact absurd h (by simp)
    | error err =>
      rw [hsf] at h
      replace h : err = PanicKind.outOfRange a b c d e := by
        simpa using h
      subst h
      unfold set_files at hsf
      split at hsf
      · exact absurd hsf (by simp)
      · rename_i segIdx hcs
        split at hsf
        · exact absurd hsf (by simp)
        · rename_i offset hg
          split at hsf
          · exact absurd hsf (by simp)
          · rename_i idx hcs2
            split at hsf
            · rename_i hf
              simp only [Except.error.injEq, PanicKind.outOfRange.injEq] at hsf
              obtain ⟨ha, hb, hc, hd, he⟩ := hsf
              subst ha; subst hb; subst hd; subst he
              obtain ⟨h1, hseg⟩ := checkedSub_inv _ _ _ hcs
              obtain ⟨h3, hidx⟩ := checkedSub_inv _ _ _ hcs2
              subst hseg
              have hlt : segment - 1 < s.offsets.length :=
                lt_length_of_get?_eq_some _ _ _ hg
              have hlen : s.files.length ≤ idx := List.get?_eq_none.mp hf
              subst hc
              exact ⟨h1, by omega, rfl, rfl, hg, by omega, rfl, hlen⟩
            · rename_i item hf
              split at hsf
              · exact absurd hsf (by simp)
              · exact absurd hsf (by simp)
  · intro hbad
    rcases hbad with h0 | hgt
    · subst h0
      unfold set_item set_files
      rw [checkedSub_none 0 1 (by omega)]
    · have h1 : 1 ≤ segment := by omega
      have hg : s.offsets.get? (segment - 1) = none :=
        List.get?_eq_none.mpr (by omega)
      unfold set_item set_files
      simp only [checkedSub_pos segment 1 h1, hg]

/-- Witness for claim C10: a diagnostic panic (segment in range, index past the
array) and a `segment = 0` abort without diagnostic. -/
theorem set_item_panic_conditions_witness :
    (set_item ⟨[5], [.Present, .Present, .Present], 2, 64⟩ 1 10 Operation.Delete =
        .error (.outOfRange 1 10 5 14 3) →
      1 ≤ 1 ∧ 1 ≤ (State.offsets ⟨[5], [.Present, .Present, .Present], 2, 64⟩).length ∧
      (1 : Nat) = 1 ∧ (10 : Nat) = 10 ∧
      (State.offsets ⟨[5], [.Present, .Present, .Present], 2, 64⟩).get? (1 - 1) = some 5 ∧
      5 + 10 = 14 + 1 ∧
      (3 : Nat) = (State.files ⟨[5], [.Present, .Present, .Present], 2, 64⟩).length ∧
      3 ≤ 14) ∧
    set_item ⟨[5], [.Present, .Present, .Present], 2, 64⟩ 1 10 Operation.Delete =
      .error (.outOfRange 1 10 5 14 3) ∧
    ((0 = 0 ∨ (State.offsets ⟨[5], [.Present, .Present, .Present], 2, 64⟩).length < 0) →
      set_item ⟨[5], [.Present, .Present, .Present], 2, 64⟩ 0 10 Operation.Delete =
        .error .offsetAccess) ∧
    set_item ⟨[5], [.Present, .Present, .Present], 2, 64⟩ 0 10 Operation.Delete =
      .error .offsetAccess :=
  ⟨(set_item_panic_conditions ⟨[5], [.Present, .Present, .Present], 2, 64⟩ 1 10
      Operation.Delete).1 1 10 5 14 3,
    by decide,
    (set_item_panic_conditions ⟨[5], [.Present, .Present, .Present], 2, 64⟩ 0 10
      Operation.Delete).2,
    (set_item_panic_conditions ⟨[5], [.Present, .Present, .Present], 2, 64⟩ 0 10
      Operation.Delete).2 (Or.inl rfl)⟩

/-! ### Claim C2 -/

theorem writeSeq_nil (fs : List FileState) : writeSeq fs [] = fs := rfl

theorem writeSeq_cons (fs : List FileState) (iv : Nat × FileState)
    (ws : List (Nat × FileState)) :
    writeSeq fs (iv :: ws) = writeSeq (fs.set iv.1 iv.2) ws := rfl

theorem length_writeSeq (ws : List (Nat × FileState)) (fs : List FileState) :
    (writeSeq fs ws).length = fs.length := by
  induction ws generalizing fs with
  | nil => rfl
  | cons iv rest ih => rw [writeSeq_cons, ih, List.length_set]

theorem writeSeq_get?_frame (ws : List (Nat × FileState)) (fs : List FileState) (j : Nat)
    (h : ∀ iv ∈ ws, iv.1 ≠ j) :
    (writeSeq fs ws).get? j = fs.get? j := by
  induction ws generalizing fs with
  | nil => rfl
  | cons iv rest ih =>
    rw [writeSeq_cons, ih _ (fun x hx => h x (List.mem_cons_of_mem iv hx))]
    exact get?_of_set_ne _ _ _ _ (h iv (List.mem_cons_self iv rest))

theorem writeSeq_set_out (ws : List (Nat × FileState)) (fs : List FileState)
    (i : Nat) (v : FileState) (h : ∀ iv ∈ ws, iv.1 ≠ i) :
    writeSeq (fs.set i v) ws = (writeSeq fs ws).set i v := by
  induction ws generalizing fs with
  | nil => rfl
  | cons jw rest ih =>
    rw [writeSeq_cons, writeSeq_cons]
    have hcomm : (fs.set i v).set jw.1 jw.2 = (fs.set jw.1 jw.2).set i v :=
      List.set_comm v jw.2 fs (Ne.symm (h jw (List.mem_cons_self jw rest)))
    rw [hcomm]
    exact ih _ (fun x hx => h x (List.mem_cons_of_mem jw hx))

theorem writeSeq_swap (w1 w2 : List (Nat × FileState)) (fs : List FileState)
    (h : ∀ iv ∈ w1, ∀ jw ∈ w2, iv.1 ≠ jw.1) :
    writeSeq (writeSeq fs w1) w2 = writeSeq (writeSeq fs w2) w1 := by
  induction w1 generalizing fs with
  | nil => rfl
  | cons iv rest ih =>
    rw [writeSeq_cons, ih _ (fun x hx => h x (List.mem_cons_of_mem iv hx)),
      writeSeq_cons]
    congr 1
    exact writeSeq_set_out w2 fs iv.1 iv.2
      (fun jw hjw => Ne.symm (h iv (List.mem_cons_self iv rest) jw hjw))

theorem itemsCells_cons (off : List Nat) (seg : Nat) (it : Int) (rest : List Int) :
    itemsCells off seg (it :: rest) =
      match locate off seg (usizeOfI32 it) with
      | none => itemsCells off seg rest
      | some i => i :: itemsCells off seg rest := by
  unfold itemsCells
  rw [List.filterMap_cons]
  cases locate off seg (usizeOfI32 it) <;> rfl

theorem set_files_locate_none (off : List Nat) (fs gs : List FileState)
    (seg num : Nat) (op : Operation) (hl : locate off seg num = none) :
    ∃ e, set_files off fs seg num op = Except.error e ∧
      set_files off gs seg num op = Except.error e := by
  unfold locate at hl
  split at hl
  · rename_i hc
    refine ⟨PanicKind.offsetAccess, ?_, ?_⟩ <;> (unfold set_files; simp only [hc])
  · rename_i si hc
    split at hl
    · rename_i hg
      refine ⟨PanicKind.offsetAccess, ?_, ?_⟩ <;> (unfold set_files; simp only [hc, hg])
    · rename_i offset hg
      refine ⟨PanicKind.idxUnderflow, ?_, ?_⟩ <;>
        (unfold set_files; simp only [hc, hg, hl])

theorem set_files_locate_some (off : List Nat) (fs : List FileState)
    (seg num idx : Nat) (op : Operation) (hl : locate off seg num = some idx) :
    ∃ offset, off.get? (seg - 1) = some offset ∧
      set_files off fs seg num op =
        (match fs.get? idx with
         | none => Except.error (.outOfRange seg num offset idx fs.length)
         | some item =>
           match transition op item with
           | none => Except.error .tableDomain
           | some w => Except.ok (fs.set idx w)) := by
  unfold locate at hl
  split at hl
  · exact absurd hl (by simp)
  · rename_i si hc
    split at hl
    · exact absurd hl (by simp)
    · rename_i offset hg
      obtain ⟨hb, hsi⟩ := checkedSub_inv _ _ _ hc
      refine ⟨offset, by rw [← hsi]; exact hg, ?_⟩
      unfold set_files
      simp only [hc, hg, hl]

theorem applyItems_master (off : List Nat) (seg : Nat) (op : Operation) :
    ∀ (items : List Int) (fs gs : List FileState),
      fs.length = gs.length →
      (∀ i ∈ itemsCells off seg items, fs.get? i = gs.get? i) →
      (∀ e, applyItems off seg op fs items = .error e →
          applyItems off seg op gs items = .error e) ∧
      (∀ fs', applyItems off seg op fs items = .ok fs' →
          ∃ ws, fs' = writeSeq fs ws ∧
            applyItems off seg op gs items = .ok (writeSeq gs ws) ∧
            ∀ iv ∈ ws, iv.1 ∈ itemsCells off seg items) := by
  intro items
  induction items with
  | nil =>
    intro fs gs hlen hcells
    constructor
    · intro e h
      exact absurd h (by simp [applyItems])
    · intro fs' h
      replace h : fs = fs' := by simpa [applyItems] using h
      subst h
      exact ⟨[], rfl, rfl, by simp⟩
  | cons it rest ih =>
    intro fs gs hlen hcells
    cases hl : locate off seg (usizeOfI32 it) with
    | none =>
      obtain ⟨e0, hfs, hgs⟩ := set_files_locate_none off fs gs seg (usizeOfI32 it) op hl
      constructor
      · intro e h
        simp only [applyItems, hfs] at h
        simp only [applyItems, hgs]
        exact h
      · intro fs' h
        simp only [applyItems, hfs] at h
        exact absurd h (by simp)
    | some idx =>
      obtain ⟨offset, hoff, hfseq⟩ :=
        set_files_locate_some off fs seg (usizeOfI32 it) idx op hl
      obtain ⟨offset2, hoff2, hgseq⟩ :=
        set_files_locate_some off gs seg (usizeOfI32 it) idx op hl
      rw [hoff] at hoff2
      replace hoff2 : offset = offset2 := Option.some.inj hoff2
      subst hoff2
      have hmem : idx ∈ itemsCells off seg (it :: rest) := by
        rw [itemsCells_cons, hl]
        exact List.mem_cons_self _ _
      have hgi : fs.get? idx = gs.get? idx := hcells idx hmem
      cases hf : fs.get? idx with
      | none =>
        have hgf : gs.get? idx = none := by rw [← hgi]; exact hf
        constructor
        · intro e h
          simp only [applyItems, hfseq, hf] at h
          simp only [applyItems, hgseq, hgf]
          rw [← hlen]
          exact h
        · intro fs' h
          simp only [applyItems, hfseq, hf] at h
          exact absurd h (by simp)
      | some v =>
        have hgf : gs.get? idx = some v := by rw [← hgi]; exact hf
        cases ht : transition op v with
        | none =>
          constructor
          · intro e h
            simp only [applyItems, hfseq, hf, ht] at h
            simp only [applyItems, hgseq, hgf, ht]
            exact h
          · intro fs' h
            simp only [applyItems, hfseq, hf, ht] at h
            exact absurd h (by simp)
        | some w =>
          have hidxlt : idx < fs.length := lt_length_of_get?_eq_some _ _ _ hf
          have hidxlt2 : idx < gs.length := by omega
          have hlen2 : (fs.set idx w).length = (gs.set idx w).length := by
            simp [List.length_set, hlen]
          have hcells2 : ∀ i ∈ itemsCells off seg rest,
              (fs.set idx w).get? i = (gs.set idx w).get? i := by
            intro i hi
            by_cases hii : idx = i
            · subst hii
              rw [get?_of_set_self _ _ _ hidxlt, get?_of_set_self _ _ _ hidxlt2]
            · rw [get?_of_set_ne _ _ _ _ hii, get?_of_set_ne _ _ _ _ hii]
              refine hcells i ?_
              rw [itemsCells_cons, hl]
              exact List.mem_cons_of_mem _ hi
          obtain ⟨ihe, iho⟩ := ih (fs.set idx w) (gs.set idx w) hlen2 hcells2
          constructor
          · intro e h
            simp only [applyItems, hfseq, hf, ht] at h
            simp only [applyItems, hgseq, hgf, ht]
            exact ihe e h
          · intro fs' h
            simp only [applyItems, hfseq, hf, ht] at h
            obtain ⟨ws, hfs', hgrun, hwsmem⟩ := iho fs' h
            refine ⟨(idx, w) :: ws, ?_, ?_, ?_⟩
            · rw [writeSeq_cons]
              exact hfs'
            · simp only [applyItems, hgseq, hgf, ht]
              exact hgrun
            · intro iv hiv
              rw [itemsCells_cons, hl]
              rcases List.mem_cons.mp hiv with h1 | h1
              · rw [h1]
                exact List.mem_cons_self _ _
              · exact List.mem_cons_of_mem _ (hwsmem iv h1)

theorem applyEventFiles_char (off : List Nat) (fs : List FileState) (e : Event)
    (fs' : List FileState) (h : applyEventFiles off fs e = .ok fs') :
    ∃ ws, fs' = writeSeq fs ws ∧ ∀ iv ∈ ws, iv.1 ∈ eventCells off e := by
  obtain ⟨-, iho⟩ := applyItems_master off e.segment e.operation e.items fs fs rfl
    (fun i _ => rfl)
  obtain ⟨ws, h1, -, h3⟩ := iho fs' h
  exact ⟨ws, h1, h3⟩

theorem applyEventFiles_congr_ok (off : List Nat) (fs gs : List FileState) (e : Event)
    (fs' : List FileState) (hlen : fs.length = gs.length)
    (hcells : ∀ i ∈ eventCells off e, fs.get? i = gs.get? i)
    (h : applyEventFiles off fs e = .ok fs') :
    ∃ ws, fs' = writeSeq fs ws ∧ applyEventFiles off gs e = .ok (writeSeq gs ws) ∧
      ∀ iv ∈ ws, iv.1 ∈ eventCells off e := by
  obtain ⟨-, iho⟩ := applyItems_master off e.segment e.operation e.items fs gs hlen hcells
  exact iho fs' h

theorem two_event_swap (off : List Nat) (fs f1 f2 : List FileState) (e1 e2 : Event)
    (hd : DisjointEvents off e1 e2)
    (h1 : applyEventFiles off fs e1 = .ok f1)
    (h2 : applyEventFiles off f1 e2 = .ok f2) :
    ∃ g1, applyEventFiles off fs e2 = .ok g1 ∧ applyEventFiles off g1 e1 = .ok f2 := by
  obtain ⟨ws1, hf1, hws1⟩ := applyEventFiles_char off fs e1 f1 h1
  have hlen1 : f1.length = fs.length := by rw [hf1]; exact length_writeSeq ws1 fs
  have hcells1 : ∀ i ∈ eventCells off e2, f1.get? i = fs.get? i := by
    intro i hi
    rw [hf1]
    refine writeSeq_get?_frame ws1 fs i (fun iv hiv => ?_)
    intro heq
    exact hd i (by rw [← heq]; exact hws1 iv hiv) hi
  obtain ⟨ws2, hf2, hgs2, hws2⟩ := applyEventFiles_congr_ok off f1 fs e2 f2 hlen1 hcells1 h2
  have hlen2 : fs.length = (writeSeq fs ws2).length := (length_writeSeq ws2 fs).symm
  have hcells2 : ∀ i ∈ eventCells off e1, fs.get? i = (writeSeq fs ws2).get? i := by
    intro i hi
    refine (writeSeq_get?_frame ws2 fs i (fun iv hiv => ?_)).symm
    intro heq
    exact hd i hi (by rw [← heq]; exact hws2 iv hiv)
  obtain ⟨ws1', hf1', hrun', hws1'⟩ :=
    applyEventFiles_congr_ok off fs (writeSeq fs ws2) e1 f1 hlen2 hcells2 h1
  refine ⟨writeSeq fs ws2, hgs2, ?_⟩
  rw [hrun', hf2, hf1']
  congr 1
  exact writeSeq_swap ws2 ws1' fs
    (fun iv hiv jw hjw heq =>
      hd jw.1 (hws1' jw hjw) (by rw [← heq]; exact hws2 iv hiv))

theorem applyGroupFiles_cons_ok (off : List Nat) (fs fs' : List FileState) (e : Event)
    (l : List Event) (h : applyGroupFiles off fs (e :: l) = .ok fs') :
    ∃ f1, applyEventFiles off fs e = .ok f1 ∧ applyGroupFiles off f1 l = .ok fs' := by
  simp only [applyGroupFiles] at h
  cases he : applyEventFiles off fs e with
  | error err =>
    rw [he] at h
    exact absurd h (by simp)
  | ok f1 =>
    rw [he] at h
    exact ⟨f1, rfl, h⟩

theorem disjointEvents_symm (off : List Nat) (a b : Event) :
    DisjointEvents off a b → DisjointEvents off b a :=
  fun h c hcb hca => h c hca hcb

theorem applyGroupFiles_perm (off : List Nat) (l1 l2 : List Event) (hp : l1.Perm l2) :
    l1.Pairwise (DisjointEvents off) →
    ∀ fs fs', applyGroupFiles off fs l1 = .ok fs' →
      applyGroupFiles off fs l2 = .ok fs' := by
  induction hp with
  | nil =>
    intro _ fs fs' h
    exact h
  | cons x hperm ih =>
    intro hd fs fs' h
    obtain ⟨f1, he, hrest⟩ := applyGroupFiles_cons_ok off fs fs' x _ h
    have hrest2 := ih hd.of_cons f1 fs' hrest
    simp only [applyGroupFiles, he]
    exact hrest2
  | swap x y l =>
    intro hd fs fs' h
    obtain ⟨f1, hy, hrest⟩ := applyGroupFiles_cons_ok off fs fs' y _ h
    obtain ⟨f2, hx, hrest2⟩ := applyGroupFiles_cons_ok off f1 fs' x _ hrest
    have hdyx : DisjointEvents off y x :=
      (List.pairwise_cons.mp hd).1 x (List.mem_cons_self x l)
    obtain ⟨g1, hgx, hgy⟩ := two_event_swap off fs f1 f2 y x hdyx hy hx
    simp only [applyGroupFiles, hgx, hgy]
    exact hrest2
  | trans hp1 hp2 ih1 ih2 =>
    intro hd fs fs' h
    have hd2 := (hp1.pairwise_iff (fun hab => disjointEvents_symm off _ _ hab)).mp hd
    exact ih2 hd2 fs fs' (ih1 hd fs fs' h)

/-- Claim C2 counterexample: a batch of two same-timestamp events on the same
object is not order-independent.  Delete then Expire on a Present object ends
in `Expired`; Expire then Delete ends in `WeirdCase`.  Both orders succeed and
give different final state arrays. -/
theorem batch_order_changes_state :
    List.Perm
      [Event.mk ⟨10, 0⟩ Operation.Delete 1 [1], Event.mk ⟨10, 0⟩ Operation.Expire 1 [1]]
      [Event.mk ⟨10, 0⟩ Operation.Expire 1 [1], Event.mk ⟨10, 0⟩ Operation.Delete 1 [1]] ∧
    applyGroup ⟨[0], [.Present], 2, 64⟩
        [Event.mk ⟨10, 0⟩ Operation.Delete 1 [1], Event.mk ⟨10, 0⟩ Operation.Expire 1 [1]] =
      .ok ⟨[0], [.Expired], 2, 64⟩ ∧
    applyGroup ⟨[0], [.Present], 2, 64⟩
        [Event.mk ⟨10, 0⟩ Operation.Expire 1 [1], Event.mk ⟨10, 0⟩ Operation.Delete 1 [1]] =
      .ok ⟨[0], [.WeirdCase], 2, 64⟩ ∧
    applyGroup ⟨[0], [.Present], 2, 64⟩
        [Event.mk ⟨10, 0⟩ Operation.Delete 1 [1], Event.mk ⟨10, 0⟩ Operation.Expire 1 [1]] ≠
      applyGroup ⟨[0], [.Present], 2, 64⟩
        [Event.mk ⟨10, 0⟩ Operation.Expire 1 [1], Event.mk ⟨10, 0⟩ Operation.Delete 1 [1]] :=
  ⟨List.Perm.swap _ _ _, by decide, by decide, by decide⟩

/-- Claim C2 (amended): intra-batch event order cannot be reordered freely in
general (see the counterexample), but for a batch whose events touch pairwise
disjoint sets of object cells, every permutation of the batch that is applied
from the same state store yields the same final per-object state array,
provided one order succeeds. -/
theorem applyGroup_perm_of_disjoint (s : State) (l1 l2 : List Event)
    (hp : l1.Perm l2) (hd : l1.Pairwise (DisjointEvents s.offsets))
    (s' : State) (h : applyGroup s l1 = .ok s') :
    applyGroup s l2 = .ok s' := by
  unfold applyGroup at h ⊢
  cases hg : applyGroupFiles s.offsets s.files l1 with
  | error e =>
    rw [hg] at h
    exact absurd h (by simp)
  | ok fs' =>
    rw [hg] at h
    simp only [applyGroupFiles_perm s.offsets l1 l2 hp hd s.files fs' hg]
    exact h

/-- Witness for the amended claim C2: two events on distinct objects, swapped. -/
theorem applyGroup_perm_of_disjoint_witness :
    List.Perm
      [Event.mk ⟨10, 0⟩ Operation.Delete 1 [1], Event.mk ⟨10, 0⟩ Operation.Expire 1 [2]]
      [Event.mk ⟨10, 0⟩ Operation.Expire 1 [2], Event.mk ⟨10, 0⟩ Operation.Delete 1 [1]] ∧
    List.Pairwise (DisjointEvents (State.offsets ⟨[0], [.Present, .Present], 2, 64⟩))
      [Event.mk ⟨10, 0⟩ Operation.Delete 1 [1], Event.mk ⟨10, 0⟩ Operation.Expire 1 [2]] ∧
    applyGroup ⟨[0], [.Present, .Present], 2, 64⟩
        [Event.mk ⟨10, 0⟩ Operation.Delete 1 [1], Event.mk ⟨10, 0⟩ Operation.Expire 1 [2]] =
      .ok ⟨[0], [.DeleteMarker, .DeleteMarkerDeleted], 2, 64⟩ ∧
    applyGroup ⟨[0], [.Present, .Present], 2, 64⟩
        [Event.mk ⟨10, 0⟩ Operation.Expire 1 [2], Event.mk ⟨10, 0⟩ Operation.Delete 1 [1]] =
      .ok ⟨[0], [.DeleteMarker, .DeleteMarkerDeleted], 2, 64⟩ :=
  ⟨List.Perm.swap _ _ _, by decide, by decide,
    applyGroup_perm_of_disjoint ⟨[0], [.Present, .Present], 2, 64⟩
      [Event.mk ⟨10, 0⟩ Operation.Delete 1 [1], Event.mk ⟨10, 0⟩ Operation.Expire 1 [2]]
      [Event.mk ⟨10, 0⟩ Operation.Expire 1 [2], Event.mk ⟨10, 0⟩ Operation.Delete 1 [1]]
      (List.Perm.swap _ _ _) (by decide)
      ⟨[0], [.DeleteMarker, .DeleteMarkerDeleted], 2, 64⟩ (by decide)⟩

/-! ### Claim C5 -/

theorem bucket_blt_true_iff (a b : Bucket) : Bucket.blt a b = true ↔ Bucket.Lt a b := by
  unfold Bucket.blt Bucket.Lt
  simp [Bool.or_eq_true, Bool.and_eq_true, decide_eq_true_eq]

theorem bucket_blt_false_iff (a b : Bucket) : Bucket.blt a b = false ↔ Bucket.Le b a := by
  obtain ⟨as, au⟩ := a
  obtain ⟨bs, bu⟩ := b
  unfold Bucket.blt Bucket.Le
  simp only [Bool.or_eq_false_iff, Bool.and_eq_false_iff, decide_eq_false_iff_not,
    Bool.not_eq_true, decide_eq_true_eq]
  constructor
  · rintro ⟨h1, h2⟩
    rcases h2 with h2 | h2
    · omega
    · omega
  · intro h
    rcases h with h | ⟨h1, h2⟩
    · constructor
      · omega
      · left
        omega
    · constructor
      · omega
      · right
        omega

theorem bucket_le_trans (a b c : Bucket) (h1 : Bucket.Le a b) (h2 : Bucket.Le b c) :
    Bucket.Le a c := by
  unfold Bucket.Le at *
  rcases h1 with h1 | ⟨h1, h1'⟩ <;> rcases h2 with h2 | ⟨h2, h2'⟩ <;> omega

theorem bucket_le_of_lt (a b : Bucket) (h : Bucket.Lt a b) : Bucket.Le a b := by
  unfold Bucket.Lt at h
  unfold Bucket.Le
  rcases h with h | ⟨h1, h2⟩ <;> omega

theorem bucket_lt_of_lt_of_le (a b c : Bucket) (h1 : Bucket.Lt a b) (h2 : Bucket.Le b c) :
    Bucket.Lt a c := by
  unfold Bucket.Lt at *
  unfold Bucket.Le at h2
  rcases h1 with h1 | ⟨h1, h1'⟩ <;> rcases h2 with h2 | ⟨h2, h2'⟩ <;> omega

theorem bucket_lt_of_le_of_ne (a b : Bucket) (h1 : Bucket.Le a b) (h2 : a ≠ b) :
    Bucket.Lt a b := by
  have hne : a.sec ≠ b.sec ∨ a.sub ≠ b.sub := by
    by_contra hc
    push_neg at hc
    refine h2 ?_
    cases a
    cases b
    simp_all
  unfold Bucket.Le at h1
  unfold Bucket.Lt
  rcases h1 with h1 | ⟨h1, h1'⟩
  · left
    exact h1
  · rcases hne with hne | hne
    · exact absurd h1 hne
    · right
      exact ⟨h1, by omega⟩

theorem bucket_lt_irrefl (a : Bucket) : ¬Bucket.Lt a a := by
  unfold Bucket.Lt
  omega

theorem pickMin_none (ls : List (List Event)) (h : pickMin ls = none) :
    ∀ l ∈ ls, l = [] := by
  induction ls with
  | nil => intro l hl; exact absurd hl (List.not_mem_nil l)
  | cons hd rest ih =>
    cases hd with
    | nil =>
      simp only [pickMin] at h
      intro l hl
      rcases List.mem_cons.mp hl with h1 | h1
      · exact h1
      · exact ih h l h1
    | cons e t =>
      simp only [pickMin] at h
      cases hp : pickMin rest with
      | none =>
        simp only [hp] at h
        exact absurd h (by simp)
      | some p =>
        obtain ⟨e', rest'⟩ := p
        simp only [hp] at h
        by_cases hb : Bucket.blt e'.bucket e.bucket
        · rw [if_pos hb] at h
          exact absurd h (by simp)
        · rw [if_neg hb] at h
          exact absurd h (by simp)

theorem flatten_eq_nil_of_all_nil (ls : List (List Event)) (h : ∀ l ∈ ls, l = []) :
    ls.flatten = [] := by
  induction ls with
  | nil => rfl
  | cons hd rest ih =>
    rw [List.flatten_cons, h hd (List.mem_cons_self hd rest),
      ih (fun l hl => h l (List.mem_cons_of_mem hd hl))]
    rfl

theorem pickMin_perm (ls : List (List Event)) (e : Event) (rest : List (List Event))
    (h : pickMin ls = some (e, rest)) : (e :: rest.flatten).Perm ls.flatten := by
  induction ls generalizing e rest with
  | nil => exact absurd h (by simp [pickMin])
  | cons hd rest2 ih =>
    cases hd with
    | nil =>
      simp only [pickMin] at h
      have := ih e rest h
      simpa using this
    | cons a t =>
      simp only [pickMin] at h
      cases hp : pickMin rest2 with
      | none =>
        simp only [hp] at h
        replace h : a = e ∧ [t] = rest := by simpa using h
        obtain ⟨he, hrest⟩ := h
        rw [← he, ← hrest]
        have hnil : rest2.flatten = [] :=
          flatten_eq_nil_of_all_nil rest2 (pickMin_none rest2 hp)
        simp only [List.flatten_cons, List.flatten_nil, List.append_nil, hnil]
        exact List.Perm.refl _
      | some p =>
        obtain ⟨e', rest'⟩ := p
        simp only [hp] at h
        by_cases hb : Bucket.blt e'.bucket a.bucket
        · rw [if_pos hb] at h
          replace h : e' = e ∧ (a :: t) :: rest' = rest := by simpa using h
          obtain ⟨he, hrest⟩ := h
          rw [← he, ← hrest]
          simp only [List.flatten_cons]
          exact (List.perm_middle.symm).trans
            (List.Perm.append_left _ (ih e' rest' hp))
        · rw [if_neg hb] at h
          replace h : a = e ∧ t :: rest2 = rest := by simpa using h
          obtain ⟨he, hrest⟩ := h
          rw [← he, ← hrest]
          simp only [List.flatten_cons, List.cons_append]
          exact List.Perm.refl _

theorem pickMin_min (ls : List (List Event))
    (hs : ∀ l ∈ ls, l.Pairwise (fun a b => Bucket.Le a.bucket b.bucket)) :
    ∀ (e : Event) (rest : List (List Event)), pickMin ls = some (e, rest) →
      ∀ x ∈ rest.flatten, Bucket.Le e.bucket x.bucket := by
  induction ls with
  | nil => intro e rest h; exact absurd h (by simp [pickMin])
  | cons hd rest2 ih =>
    intro e rest h
    cases hd with
    | nil =>
      simp only [pickMin] at h
      exact ih (fun l hl => hs l (List.mem_cons_of_mem _ hl)) e rest h
    | cons a t =>
      have hpair : (a :: t).Pairwise (fun x y => Bucket.Le x.bucket y.bucket) :=
        hs (a :: t) (List.mem_cons_self _ _)
      have hhead : ∀ x ∈ t, Bucket.Le a.bucket x.bucket :=
        (List.pairwise_cons.mp hpair).1
      simp only [pickMin] at h
      cases hp : pickMin rest2 with
      | none =>
        simp only [hp] at h
        replace h : a = e ∧ [t] = rest := by simpa using h
        obtain ⟨he, hrest⟩ := h
        rw [← he, ← hrest]
        intro x hx
        simp only [List.flatten_cons, List.flatten_nil, List.append_nil] at hx
        exact hhead x hx
      | some p =>
        obtain ⟨e', rest'⟩ := p
        simp only [hp] at h
        have hrec := ih (fun l hl => hs l (List.mem_cons_of_mem _ hl)) e' rest' hp
        have hperm := pickMin_perm rest2 e' rest' hp
        by_cases hb : Bucket.blt e'.bucket a.bucket
        · rw [if_pos hb] at h
          replace h : e' = e ∧ (a :: t) :: rest' = rest := by simpa using h
          obtain ⟨he, hrest⟩ := h
          rw [← he, ← hrest]
          have hlt : Bucket.Lt e'.bucket a.bucket := (bucket_blt_true_iff _ _).mp hb
          have hle : Bucket.Le e'.bucket a.bucket := bucket_le_of_lt _ _ hlt
          intro x hx
          simp only [List.flatten_cons] at hx
          rcases List.mem_append.mp hx with hx | hx
          · rcases List.mem_cons.mp hx with hx | hx
            · rw [hx]
              exact hle
            · exact bucket_le_trans _ _ _ hle (hhead x hx)
          · exact hrec x hx
        · rw [if_neg hb] at h
          replace h : a = e ∧ t :: rest2 = rest := by simpa using h
          obtain ⟨he, hrest⟩ := h
          rw [← he, ← hrest]
          replace hb : Bucket.blt e'.bucket a.bucket = false := by simpa using hb
          have hle : Bucket.Le a.bucket e'.bucket := (bucket_blt_false_iff _ _).mp hb
          intro x hx
          simp only [List.flatten_cons] at hx
          rcases List.mem_append.mp hx with hx | hx
          · exact hhead x hx
          · have hx2 : x ∈ e' :: rest'.flatten := (hperm.mem_iff).mpr hx
            rcases List.mem_cons.mp hx2 with hx2 | hx2
            · rw [hx2]
              exact hle
            · exact bucket_le_trans _ _ _ hle (hrec x hx2)

theorem pickMin_sorted_rest (ls : List (List Event))
    (hs : ∀ l ∈ ls, l.Pairwise (fun a b => Bucket.Le a.bucket b.bucket)) :
    ∀ (e : Event) (rest : List (List Event)), pickMin ls = some (e, rest) →
      ∀ l ∈ rest, l.Pairwise (fun a b => Bucket.Le a.bucket b.bucket) := by
  induction ls with
  | nil => intro e rest h; exact absurd h (by simp [pickMin])
  | cons hd rest2 ih =>
    intro e rest h
    cases hd with
    | nil =>
      simp only [pickMin] at h
      exact ih (fun l hl => hs l (List.mem_cons_of_mem _ hl)) e rest h
    | cons a t =>
      simp only [pickMin] at h
      cases hp : pickMin rest2 with
      | none =>
        simp only [hp] at h
        replace h : a = e ∧ [t] = rest := by simpa using h
        obtain ⟨he, hrest⟩ := h
        rw [← hrest]
        intro l hl
        replace hl : l = t := by simpa using hl
        rw [hl]
        exact (hs (a :: t) (List.mem_cons_self _ _)).of_cons
      | some p =>
        obtain ⟨e', rest'⟩ := p
        simp only [hp] at h
        have hrec := ih (fun l hl => hs l (List.mem_cons_of_mem _ hl)) e' rest' hp
        by_cases hb : Bucket.blt e'.bucket a.bucket
        · rw [if_pos hb] at h
          replace h : e' = e ∧ (a :: t) :: rest' = rest := by simpa using h
          obtain ⟨he, hrest⟩ := h
          rw [← hrest]
          intro l hl
          rcases List.mem_cons.mp hl with hl | hl
          · rw [hl]
            exact hs (a :: t) (List.mem_cons_self _ _)
          · exact hrec l hl
        · rw [if_neg hb] at h
          replace h : a = e ∧ t :: rest2 = rest := by simpa using h
          obtain ⟨he, hrest⟩ := h
          rw [← hrest]
          intro l hl
          rcases List.mem_cons.mp hl with hl | hl
          · rw [hl]
            exact (hs (a :: t) (List.mem_cons_self _ _)).of_cons
          · exact hs l (List.mem_cons_of_mem _ hl)

theorem pickMin_length (ls : List (List Event)) (e : Event) (rest : List (List Event))
    (h : pickMin ls = some (e, rest)) :
    rest.flatten.length + 1 = ls.flatten.length := by
  have hlen := (pickMin_perm ls e rest h).length_eq
  simpa using hlen

theorem kmergeFuel_perm (n : Nat) :
    ∀ ls : List (List Event), ls.flatten.length ≤ n →
      (kmergeFuel n ls).Perm ls.flatten := by
  induction n with
  | zero =>
    intro ls hlen
    have hnil : ls.flatten = [] := List.length_eq_zero.mp (Nat.le_zero.mp hlen)
    rw [hnil]
    exact List.Perm.refl _
  | succ n ih =>
    intro ls hlen
    cases hp : pickMin ls with
    | none =>
      have hnil : ls.flatten = [] := flatten_eq_nil_of_all_nil ls (pickMin_none ls hp)
      simp only [kmergeFuel, hp, hnil]
      exact List.Perm.refl _
    | some p =>
      obtain ⟨e, rest⟩ := p
      simp only [kmergeFuel, hp]
      have hlen2 : rest.flatten.length ≤ n := by
        have := pickMin_length ls e rest hp
        omega
      exact (List.Perm.cons e (ih rest hlen2)).trans (pickMin_perm ls e rest hp)

theorem kmergeFuel_sorted (n : Nat) :
    ∀ ls : List (List Event), ls.flatten.length ≤ n →
      (∀ l ∈ ls, l.Pairwise (fun a b => Bucket.Le a.bucket b.bucket)) →
      (kmergeFuel n ls).Pairwise (fun a b => Bucket.Le a.bucket b.bucket) := by
  induction n with
  | zero =>
    intro ls _ _
    exact List.Pairwise.nil
  | succ n ih =>
    intro ls hlen hs
    cases hp : pickMin ls with
    | none =>
      simp only [kmergeFuel, hp]
      exact List.Pairwise.nil
    | some p =>
      obtain ⟨e, rest⟩ := p
      simp only [kmergeFuel, hp]
      have hlen2 : rest.flatten.length ≤ n := by
        have := pickMin_length ls e rest hp
        omega
      refine List.pairwise_cons.mpr
        ⟨?_, ih rest hlen2 (pickMin_sorted_rest ls hs e rest hp)⟩
      intro x hx
      have hxmem : x ∈ rest.flatten := ((kmergeFuel_perm n rest hlen2).mem_iff).mp hx
      exact pickMin_min ls hs e rest hp x hxmem

theorem kmerge_perm (ls : List (List Event)) : (kmerge ls).Perm ls.flatten :=
  kmergeFuel_perm (totalLen ls) ls (Nat.le_refl _)

theorem kmerge_sorted (ls : List (List Event))
    (hs : ∀ l ∈ ls, l.Pairwise (fun a b => Bucket.Le a.bucket b.bucket)) :
    (kmerge ls).Pairwise (fun a b => Bucket.Le a.bucket b.bucket) :=
  kmergeFuel_sorted (totalLen ls) ls (Nat.le_refl _) hs

theorem dropWhile_head_false {α : Type} (p : α → Bool) :
    ∀ (l : List α) (h0 : α) (t0 : List α), l.dropWhile p = h0 :: t0 → p h0 = false := by
  intro l
  induction l with
  | nil =>
    intro h0 t0 h
    exact absurd h (by simp)
  | cons a l ih =>
    intro h0 t0 h
    rw [List.dropWhile_cons] at h
    by_cases hp : p a
    · rw [if_pos hp] at h
      exact ih h0 t0 h
    · rw [if_neg hp] at h
      replace h : a = h0 ∧ l = t0 := by simpa using h
      rw [← h.1]
      exact Bool.eq_false_iff.mpr hp

theorem mem_takeWhile_pred {α : Type} (p : α → Bool) :
    ∀ (l : List α) (x : α), x ∈ l.takeWhile p → p x = true := by
  intro l
  induction l with
  | nil =>
    intro x hx
    simp at hx
  | cons a l ih =>
    intro x hx
    rw [List.takeWhile_cons] at hx
    by_cases hp : p a
    · rw [if_pos hp] at hx
      rcases List.mem_cons.mp hx with hx | hx
      · rw [hx]
        exact hp
      · exact ih x hx
    · rw [if_neg hp] at hx
      exact absurd hx (List.not_mem_nil x)

theorem groupFuel_mem_bucket (n : Nat) :
    ∀ l : List Event, l.length ≤ n → ∀ kg ∈ groupFuel n l, ∀ x ∈ kg.2, x.bucket = kg.1 := by
  induction n with
  | zero =>
    intro l _ kg hkg
    exact absurd hkg (by simp [groupFuel])
  | succ n ih =>
    intro l hlen kg hkg
    cases l with
    | nil => exact absurd hkg (by simp [groupFuel])
    | cons e rest =>
      simp only [groupFuel] at hkg
      rcases List.mem_cons.mp hkg with hkg | hkg
      · rw [hkg]
        intro x hx
        replace hx : x ∈ e :: rest.takeWhile (fun y => decide (y.bucket = e.bucket)) := hx
        show x.bucket = e.bucket
        rcases List.mem_cons.mp hx with hx | hx
        · rw [hx]
        · have hpx := mem_takeWhile_pred (fun y => decide (y.bucket = e.bucket)) rest x hx
          simpa using hpx
      · have hdb : (rest.dropWhile (fun x => decide (x.bucket = e.bucket))).length ≤
            rest.length := List.Sublist.length_le (List.dropWhile_sublist _)
        have hlen2 : (rest.dropWhile (fun x => decide (x.bucket = e.bucket))).length ≤ n := by
          have hl : rest.length + 1 ≤ n + 1 := by simpa using hlen
          omega
        exact ih _ hlen2 kg hkg

theorem groupFuel_flatten (n : Nat) :
    ∀ l : List Event, l.length ≤ n → ((groupFuel n l).map Prod.snd).flatten = l := by
  induction n with
  | zero =>
    intro l hlen
    have hnil : l = [] := List.length_eq_zero.mp (Nat.le_zero.mp hlen)
    rw [hnil]
    rfl
  | succ n ih =>
    intro l hlen
    cases l with
    | nil => rfl
    | cons e rest =>
      have hdb : (rest.dropWhile (fun x => decide (x.bucket = e.bucket))).length ≤
          rest.length := List.Sublist.length_le (List.dropWhile_sublist _)
      have hlen2 : (rest.dropWhile (fun x => decide (x.bucket = e.bucket))).length ≤ n := by
        have hl : rest.length + 1 ≤ n + 1 := by simpa using hlen
        omega
      simp only [groupFuel, List.map_cons, List.flatten_cons]
      rw [ih _ hlen2]
      simp only [List.cons_append, List.takeWhile_append_dropWhile]

theorem groupFuel_key_mem (n : Nat) :
    ∀ l : List Event, l.length ≤ n → ∀ kg ∈ groupFuel n l, ∃ x ∈ l, x.bucket = kg.1 := by
  induction n with
  | zero =>
    intro l _ kg hkg
    exact absurd hkg (by simp [groupFuel])
  | succ n ih =>
    intro l hlen kg hkg
    cases l with
    | nil => exact absurd hkg (by simp [groupFuel])
    | cons e rest =>
      simp only [groupFuel] at hkg
      rcases List.mem_cons.mp hkg with hkg | hkg
      · refine ⟨e, List.mem_cons_self _ _, ?_⟩
        rw [hkg]
      · have hdb : (rest.dropWhile (fun x => decide (x.bucket = e.bucket))).length ≤
            rest.length := List.Sublist.length_le (List.dropWhile_sublist _)
        have hlen2 : (rest.dropWhile (fun x => decide (x.bucket = e.bucket))).length ≤ n := by
          have hl : rest.length + 1 ≤ n + 1 := by simpa using hlen
          omega
        obtain ⟨x, hx, hxb⟩ := ih _ hlen2 kg hkg
        refine ⟨x, ?_, hxb⟩
        exact List.mem_cons_of_mem _
          ((List.dropWhile_sublist (fun x => decide (x.bucket = e.bucket))).subset hx)

theorem groupFuel_keys_sorted (n : Nat) :
    ∀ l : List Event, l.length ≤ n →
      l.Pairwise (fun a b => Bucket.Le a.bucket b.bucket) →
      ((groupFuel n l).map Prod.fst).Pairwise Bucket.Lt := by
  induction n with
  | zero =>
    intro l _ _
    simp only [groupFuel, List.map_nil]
    exact List.Pairwise.nil
  | succ n ih =>
    intro l hlen hs
    cases l with
    | nil =>
      simp only [groupFuel, List.map_nil]
      exact List.Pairwise.nil
    | cons e rest =>
      have hdb : (rest.dropWhile (fun x => decide (x.bucket = e.bucket))).length ≤
          rest.length := List.Sublist.length_le (List.dropWhile_sublist _)
      have hlen2 : (rest.dropWhile (fun x => decide (x.bucket = e.bucket))).length ≤ n := by
        have hl : rest.length + 1 ≤ n + 1 := by simpa using hlen
        omega
      have hrest_sorted : rest.Pairwise (fun a b => Bucket.Le a.bucket b.bucket) :=
        hs.of_cons
      have hdrop_sorted :
          (rest.dropWhile (fun x => decide (x.bucket = e.bucket))).Pairwise
            (fun a b => Bucket.Le a.bucket b.bucket) :=
        List.Pairwise.sublist (List.dropWhile_sublist _) hrest_sorted
      have hheadle : ∀ y ∈ rest, Bucket.Le e.bucket y.bucket :=
        (List.pairwise_cons.mp hs).1
      simp only [groupFuel, List.map_cons]
      refine List.pairwise_cons.mpr ⟨?_, ih _ hlen2 hdrop_sorted⟩
      intro k hk
      obtain ⟨kg, hkg, hk1⟩ := List.mem_map.mp hk
      obtain ⟨x, hx, hxb⟩ := groupFuel_key_mem n _ hlen2 kg hkg
      have hlt : Bucket.Lt e.bucket x.bucket := by
        cases ho : rest.dropWhile (fun x => decide (x.bucket = e.bucket)) with
        | nil =>
          rw [ho] at hx
          exact absurd hx (List.not_mem_nil x)
        | cons h0 t0 =>
          rw [ho] at hx
          have hph0 : (fun x => decide (x.bucket = e.bucket)) h0 = false :=
            dropWhile_head_false _ rest h0 t0 ho
          have hne : ¬(h0.bucket = e.bucket) := of_decide_eq_false hph0
          have hh0mem : h0 ∈ rest :=
            (List.dropWhile_sublist _).subset (ho ▸ List.mem_cons_self h0 t0)
          have hlt0 : Bucket.Lt e.bucket h0.bucket :=
            bucket_lt_of_le_of_ne _ _ (hheadle h0 hh0mem) (fun hq => hne hq.symm)
          rcases List.mem_cons.mp hx with hx | hx
          · rw [hx]
            exact hlt0
          · have hsorted0 : (h0 :: t0).Pairwise (fun a b => Bucket.Le a.bucket b.bucket) :=
              ho ▸ hdrop_sorted
            exact bucket_lt_of_lt_of_le _ _ _ hlt0
              ((List.pairwise_cons.mp hsorted0).1 x hx)
      rw [← hk1, ← hxb]
      exact hlt

/-- Claim C5: for internally non-decreasing event streams, the k-way merge
followed by equal-timestamp grouping emits batches whose keys are strictly
ascending (no duplicate timestamps), every event of a batch carries the batch's
timestamp, every input event lands in exactly one batch (the concatenation of
the batches is a permutation of the union of the streams), and any two events
with the same timestamp — from any source streams, in any source order — land
in the same batch. -/
theorem merge_batches_sorted (streams : List (List Event))
    (hs : ∀ l ∈ streams, l.Pairwise (fun a b => Bucket.Le a.bucket b.bucket)) :
    ((groupByBucket (kmerge streams)).map Prod.fst).Pairwise Bucket.Lt ∧
    (∀ kg ∈ groupByBucket (kmerge streams), ∀ x ∈ kg.2, x.bucket = kg.1) ∧
    ((groupByBucket (kmerge streams)).map Prod.snd).flatten.Perm streams.flatten ∧
    (∀ kg1 ∈ groupByBucket (kmerge streams), ∀ kg2 ∈ groupByBucket (kmerge streams),
      ∀ x1 ∈ kg1.2, ∀ x2 ∈ kg2.2, x1.bucket = x2.bucket → kg1 = kg2) := by
  have hsorted := kmerge_sorted streams hs
  have hkeys : ((groupByBucket (kmerge streams)).map Prod.fst).Pairwise Bucket.Lt :=
    groupFuel_keys_sorted (kmerge streams).length (kmerge streams) (Nat.le_refl _) hsorted
  have hmemb : ∀ kg ∈ groupByBucket (kmerge streams), ∀ x ∈ kg.2, x.bucket = kg.1 :=
    groupFuel_mem_bucket (kmerge streams).length (kmerge streams) (Nat.le_refl _)
  have hflat : ((groupByBucket (kmerge streams)).map Prod.snd).flatten = kmerge streams :=
    groupFuel_flatten (kmerge streams).length (kmerge streams) (Nat.le_refl _)
  refine ⟨hkeys, hmemb, ?_, ?_⟩
  · rw [hflat]
    exact kmerge_perm streams
  · have hpair_ne : (groupByBucket (kmerge streams)).Pairwise (fun p q => p.1 ≠ q.1) := by
      have hp1 := (List.pairwise_map).mp hkeys
      refine hp1.imp ?_
      intro a b hab heq
      rw [heq] at hab
      exact bucket_lt_irrefl _ hab
    intro kg1 hkg1 kg2 hkg2 x1 hx1 x2 hx2 hbeq
    by_cases heq : kg1 = kg2
    · exact heq
    · exfalso
      have hsym : Symmetric (fun p q : Bucket × List Event => p.1 ≠ q.1) :=
        fun _ _ hxy heq2 => hxy heq2.symm
      have hne : kg1.1 ≠ kg2.1 := List.Pairwise.forall hsym hpair_ne hkg1 hkg2 heq
      have h1 : x1.bucket = kg1.1 := hmemb kg1 hkg1 x1 hx1
      have h2 : x2.bucket = kg2.1 := hmemb kg2 hkg2 x2 hx2
      refine hne ?_
      rw [← h1, ← h2, hbeq]

/-- Witness for claim C5: two streams, one sharing the timestamp 2 with the
other. -/
theorem merge_batches_sorted_witness :
    (∀ l ∈ [[Event.mk ⟨1, 0⟩ Operation.Delete 1 [1], Event.mk ⟨2, 0⟩ Operation.Delete 1 [1]],
        [Event.mk ⟨2, 0⟩ Operation.Expire 1 [1]]],
      l.Pairwise (fun a b => Bucket.Le a.bucket b.bucket)) ∧
    (((groupByBucket (kmerge
        [[Event.mk ⟨1, 0⟩ Operation.Delete 1 [1], Event.mk ⟨2, 0⟩ Operation.Delete 1 [1]],
          [Event.mk ⟨2, 0⟩ Operation.Expire 1 [1]]])).map Prod.fst).Pairwise Bucket.Lt ∧
      (∀ kg ∈ groupByBucket (kmerge
          [[Event.mk ⟨1, 0⟩ Operation.Delete 1 [1], Event.mk ⟨2, 0⟩ Operation.Delete 1 [1]],
            [Event.mk ⟨2, 0⟩ Operation.Expire 1 [1]]]),
        ∀ x ∈ kg.2, x.bucket = kg.1) ∧
      ((groupByBucket (kmerge
          [[Event.mk ⟨1, 0⟩ Operation.Delete 1 [1], Event.mk ⟨2, 0⟩ Operation.Delete 1 [1]],
            [Event.mk ⟨2, 0⟩ Operation.Expire 1 [1]]])).map Prod.snd).flatten.Perm
        ([[Event.mk ⟨1, 0⟩ Operation.Delete 1 [1], Event.mk ⟨2, 0⟩ Operation.Delete 1 [1]],
          [Event.mk ⟨2, 0⟩ Operation.Expire 1 [1]]]).flatten ∧
      (∀ kg1 ∈ groupByBucket (kmerge
          [[Event.mk ⟨1, 0⟩ Operation.Delete 1 [1], Event.mk ⟨2, 0⟩ Operation.Delete 1 [1]],
            [Event.mk ⟨2, 0⟩ Operation.Expire 1 [1]]]),
        ∀ kg2 ∈ groupByBucket (kmerge
          [[Event.mk ⟨1, 0⟩ Operation.Delete 1 [1], Event.mk ⟨2, 0⟩ Operation.Delete 1 [1]],
            [Event.mk ⟨2, 0⟩ Operation.Expire 1 [1]]]),
        ∀ x1 ∈ kg1.2, ∀ x2 ∈ kg2.2, x1.bucket = x2.bucket → kg1 = kg2)) :=
  ⟨by decide,
    merge_batches_sorted
      [[Event.mk ⟨1, 0⟩ Operation.Delete 1 [1], Event.mk ⟨2, 0⟩ Operation.Delete 1 [1]],
        [Event.mk ⟨2, 0⟩ Operation.Expire 1 [1]]]
      (by decide)⟩
